import Mathlib

/-!
# smart-ingest: verification of the exclusion-pattern inference pipeline

Shallow embedding of the core of the `smart-ingest` repository:

* the Pattern Validator (`ExcludePatterns.parse_and_clean_patterns`, duplicated in
  `main.py` and `src/core/gemini_client.py`),
* the Tree Renderer (`create_directory_tree` in `main.py` and
  `DirectoryAnalyzer.create_directory_tree` in `src/core/directory_analyzer.py`),
* the Pattern Generator retry loop (`generate_exclude_patterns` in `main.py`,
  `GeminiExcludePatternGenerator.generate_patterns` in `src/core/gemini_client.py`),
* the Orchestrator's merge of manual and auto-generated exclude patterns
  (`main.py`, Stage 3).

Strings are modelled as `List Char`; Python `str.strip`, `str.split(',')`,
`str.replace` and the fence-marker regular-expression substitution
`re.sub(r'(^```[a-zA-Z]*\s*|\s*```$)', '', v, flags=re.MULTILINE)` are embedded
as executable functions on character lists (ASCII whitespace).
-/

/-- ASCII whitespace recognised by Python `str.strip()` and `\s`
(space, tab, newline, carriage return, vertical tab, form feed). -/
def isPySpace (c : Char) : Bool :=
  c == ' ' || c == '\t' || c == '\n' || c == '\r' || c == Char.ofNat 11 || c == Char.ofNat 12

/-- The backquote character, written via its code point. -/
def backquote : Char := Char.ofNat 96

/-- Characters removed by `pattern.strip('\'"` ')` in both validator copies:
single quote, double quote, backquote, space. -/
def isQuoteChar (c : Char) : Bool :=
  c == '\'' || c == '"' || c == backquote || c == ' '

/-- Python `s.strip(chars)`: drop characters satisfying `p` from both ends. -/
def pyStrip (p : Char → Bool) (l : List Char) : List Char :=
  ((l.dropWhile p).reverse.dropWhile p).reverse

/-- `[a-zA-Z]` of the fence regular expression. -/
def isAsciiLetter (c : Char) : Bool :=
  ('a' ≤ c && c ≤ 'z') || ('A' ≤ c && c ≤ 'Z')

/-- Python `s.split(',')`: split at every comma, keeping empty chunks
(`''.split(',') == ['']`). -/
def splitOnComma : List Char → List (List Char)
  | [] => [[]]
  | ',' :: rest => [] :: splitOnComma rest
  | c :: rest =>
    match splitOnComma rest with
    | [] => [[c]]
    | t :: ts => (c :: t) :: ts

/-- Match of the first regex alternative `^```[a-zA-Z]*\s*` at the current
position (the caller checks the `^` anchor): three backquotes, then a greedy
letter run, then a greedy whitespace run.  Returns the consumed whitespace run
(to decide whether the next position is at a line start) and the rest. -/
def matchOpenFence (l : List Char) : Option (List Char × List Char) :=
  match l with
  | c1 :: c2 :: c3 :: rest =>
    if c1 == backquote && c2 == backquote && c3 == backquote then
      let afterTag := rest.dropWhile isAsciiLetter
      some (afterTag.takeWhile isPySpace, afterTag.dropWhile isPySpace)
    else none
  | _ => none

/-- Match of the second regex alternative `\s*```$` at the current position:
a greedy whitespace run, three backquotes, then the `$` anchor (end of input or
a following newline, which is not consumed).  Because a backquote is not
whitespace, the backtracking of the greedy `\s*` collapses to the maximal run. -/
def matchCloseFence (l : List Char) : Option (List Char) :=
  match l.dropWhile isPySpace with
  | c1 :: c2 :: c3 :: rest =>
    if c1 == backquote && c2 == backquote && c3 == backquote then
      match rest with
      | [] => some []
      | '\n' :: _ => some rest
      | _ => none
    else none
  | _ => none

/-- Left-to-right global substitution of
`re.sub(r'(^```[a-zA-Z]*\s*|\s*```$)', '', v, flags=re.MULTILINE)`:
at each position, if at a line start try the first alternative, then try the
second, else copy one character.  `atStart` tracks whether the current
position follows a newline (or is position 0) in the original string.
Every match consumes at least one character, so the input length is
sufficient fuel. -/
def fenceSubAux : Nat → Bool → List Char → List Char
  | 0, _, l => l
  | _ + 1, _, [] => []
  | fuel + 1, atStart, c :: rest =>
    match (if atStart then matchOpenFence (c :: rest) else none) with
    | some (ws, r) => fenceSubAux fuel (ws.getLast? == some '\n') r
    | none =>
      match matchCloseFence (c :: rest) with
      | some r => fenceSubAux fuel false r
      | none => c :: fenceSubAux fuel (c == '\n') rest

/-- The fence-marker removal applied by both validator copies to string input. -/
def fenceSub (l : List Char) : List Char := fenceSubAux l.length true l

/-- The comma tokens of a raw string payload after fence removal: from
`main.py` line 94-96 / `gemini_client.py` line 25-26,
`cleaned_str = re.sub(...).strip()` followed by
`[p.strip() for p in cleaned_str.split(',') if p.strip()]`. -/
def tokensOfStr (s : String) : List (List Char) :=
  ((splitOnComma (pyStrip isPySpace (fenceSub s.data))).map (pyStrip isPySpace)).filter
    (fun t => t ≠ [])

/-- The tokens of a sequence payload: `[str(p).strip() for p in v if str(p).strip()]`
(elements are modelled after the `str(p)` conversion). -/
def tokensOfList (l : List String) : List (List Char) :=
  (l.map (fun s => pyStrip isPySpace s.data)).filter (fun t => t ≠ [])

/-- The second cleaning pass applied to each token: `pattern.strip('\'"` ')`. -/
def stripQuotes (t : List Char) : List Char := pyStrip isQuoteChar t

/-- Python `cleaned_pattern.replace('//', '/')` of the `gemini_client.py`
validator copy: left-to-right, non-overlapping replacement of two slashes
by one. -/
def replaceDS : List Char → List Char
  | [] => []
  | [c] => [c]
  | c :: d :: rest =>
    if c == '/' && d == '/' then '/' :: replaceDS rest
    else c :: replaceDS (d :: rest)

/-- Whether a token contains the substring `//`. -/
def hasDS : List Char → Bool
  | [] => false
  | [_] => false
  | c :: d :: rest => (c == '/' && d == '/') || hasDS (d :: rest)

/-- The duck-typed input of `ExcludePatterns.parse_and_clean_patterns`:
a string payload, a sequence payload (after elementwise `str` conversion),
or a value of any other shape. -/
inductive PatternsInput where
  | str (s : String)
  | list (l : List String)
  | other
deriving DecidableEq

deriving instance DecidableEq for Except

/-- The cleaned token list shared by both validator copies before the
`gemini_client.py`-only separator normalisation: every raw token is quote- and
space-stripped and dropped when this leaves it empty
(`main.py` lines 104-109, `gemini_client.py` lines 33-40). -/
def cleanedTokens : PatternsInput → List (List Char)
  | .str s => ((tokensOfStr s).map stripQuotes).filter (fun t => t ≠ [])
  | .list l => ((tokensOfList l).map stripQuotes).filter (fun t => t ≠ [])
  | .other => []

/-- `ExcludePatterns.parse_and_clean_patterns` of `main.py` (lines 87-111):
split/trim the payload into raw tokens, strip surrounding quote characters,
drop tokens that become empty; raise `ValueError("Patterns must be a string
or list")` on any other input shape (modelled as `Except.error`). -/
def parse_and_clean_patterns (v : PatternsInput) : Except String (List String) :=
  match v with
  | .other => .error "Patterns must be a string or list"
  | v => .ok ((cleanedTokens v).map List.asString)

/-- `ExcludePatterns.parse_and_clean_patterns` of `src/core/gemini_client.py`
(lines 17-41): identical to the `main.py` copy except that each kept token is
additionally normalised by `cleaned_pattern.replace('//', '/')`. -/
def parse_and_clean_patterns_gc (v : PatternsInput) : Except String (List String) :=
  match v with
  | .other => .error "Patterns must be a string or list"
  | v => .ok ((cleanedTokens v).map (fun t => (replaceDS t).asString))

/-- Outcome of a single call to the generation backend, as seen by the retry
loop of `generate_exclude_patterns` (`main.py` lines 197-232): a successful
response carrying a payload handed to `ExcludePatterns`, a
`BlockedPromptException` (content-safety refusal), or any other exception
(transport error).  In the source the payload is always the string
`response.text`; the `list`/`other` payload shapes model the validator's
duck-typed boundary, so that the `except ValidationError` branch at
`main.py` lines 215-217 is reachable in the embedding. -/
inductive ApiOutcome where
  | success (payload : PatternsInput)
  | blocked
  | apiError

/-- Observable trace of one `generate_exclude_patterns` invocation:
`result` is what reaches the caller (`Except.error` would be a propagated
exception; `.ok none` is the "no patterns" outcome, `.ok (some ps)` a
successful pattern list), `calls` counts backend calls, `sleeps` records the
arguments of the `asyncio.sleep` suspensions in order. -/
structure GenTrace where
  result : Except String (Option (List String))
  calls : Nat
  sleeps : List Nat
deriving DecidableEq

/-- `raw_text = response.text.strip()` (`main.py` line 203) applied to a
string payload; other payload shapes pass through. -/
def stripResponse : PatternsInput → PatternsInput
  | .str s => .str (pyStrip isPySpace s.data).asString
  | v => v

/-- The `for attempt in range(retries)` loop of `generate_exclude_patterns`
(`main.py` lines 197-232), with `fuel = retries - attempt` remaining
iterations.  A blocked prompt breaks out of the loop (line 227); any other
backend exception sleeps `2 ** attempt` unless the attempt was the last
(lines 228-232); a parsed nonempty pattern list returns (lines 208-210); an
empty list or a validation error is logged and the loop continues without a
sleep (lines 211-222). -/
def genLoop (backend : Nat → ApiOutcome) (retries : Nat) : Nat → Nat → GenTrace
  | _, 0 => ⟨.ok none, 0, []⟩
  | attempt, fuel + 1 =>
    match backend attempt with
    | .blocked => ⟨.ok none, 1, []⟩
    | .apiError =>
      let rest := genLoop backend retries (attempt + 1) fuel
      ⟨rest.result, rest.calls + 1,
        if attempt < retries - 1 then 2 ^ attempt :: rest.sleeps else rest.sleeps⟩
    | .success payload =>
      match parse_and_clean_patterns (stripResponse payload) with
      | .ok ps =>
        if ps ≠ [] then ⟨.ok (some ps), 1, []⟩
        else
          let rest := genLoop backend retries (attempt + 1) fuel
          ⟨rest.result, rest.calls + 1, rest.sleeps⟩
      | .error _ =>
        let rest := genLoop backend retries (attempt + 1) fuel
        ⟨rest.result, rest.calls + 1, rest.sleeps⟩

/-- `generate_exclude_patterns` (`main.py` lines 167-235): `configOk` models
whether `genai.configure` succeeds (lines 180-184; on failure the function
returns `None` before any backend call), after which the retry loop runs
with the full budget. -/
def generate_exclude_patterns (configOk : Bool) (backend : Nat → ApiOutcome)
    (retries : Nat) : GenTrace :=
  if configOk then genLoop backend retries 0 retries else ⟨.ok none, 0, []⟩

/-- The pattern list the Orchestrator receives from the generator
(exceptions aside, the Python caller sees `ExcludePatterns` or `None`). -/
def resultPatterns (t : GenTrace) : Option (List String) :=
  match t.result with
  | .ok o => o
  | .error _ => none

/-- Stage 3 of `main.py` (lines 336-355): start from the manually supplied
patterns as a set, and union in the auto-generated ones when the generator
returned a nonempty list (`if auto_generated_patterns and
auto_generated_patterns.patterns`). -/
def merge_exclude_patterns (manual : List String) (auto : Option (List String)) :
    Finset String :=
  match auto with
  | some ps => if ps ≠ [] then manual.toFinset ∪ ps.toFinset else manual.toFinset
  | none => manual.toFinset

/-- A filesystem entry as seen by the Tree Renderer: a file or a directory
with its direct children (in unspecified directory-read order; the renderer
sorts them). The model covers existing, readable paths: the
`os.path.exists` / `PermissionError` / `OSError` branches of the source
concern filesystem failures outside this model. -/
inductive FSNode where
  | file (name : String)
  | dir (name : String) (children : List FSNode)

/-- `os.path.basename` of the entry. -/
def FSNode.name : FSNode → String
  | .file n => n
  | .dir n _ => n

/-- Whether the entry is a directory (`os.path.isdir`). -/
def FSNode.isDir : FSNode → Bool
  | .file _ => false
  | .dir _ _ => true

/-- Lexicographic order on character lists by code point — how Python
compares strings. -/
def lexLe : List Char → List Char → Bool
  | [], _ => true
  | _ :: _, [] => false
  | a :: as, b :: bs =>
    if a.toNat = b.toNat then lexLe as bs
    else decide (a.toNat < b.toNat)

/-- Ordering used by `sorted(os.listdir(path))` in `main.py` line 145:
plain lexicographic comparison of names. -/
def nameLe (a b : FSNode) : Prop := lexLe a.name.data b.name.data = true

instance : DecidableRel nameLe := fun a b =>
  inferInstanceAs (Decidable (lexLe a.name.data b.name.data = true))

/-- First component of the sort key of `directory_analyzer.py` line 44:
`not x.is_dir()`, i.e. directories rank 0, files rank 1. -/
def kindRank (n : FSNode) : Nat := if n.isDir then 0 else 1

/-- Ordering used by `sorted(path.iterdir(), key=lambda x: (not x.is_dir(), x.name))`
in `src/core/directory_analyzer.py` line 44: lexicographic on the pair
(not-a-directory, name) — directories first, then files, each group by name. -/
def kindNameLe (a b : FSNode) : Prop :=
  kindRank a < kindRank b ∨ (kindRank a = kindRank b ∧ lexLe a.name.data b.name.data = true)

instance : DecidableRel kindNameLe := fun a b =>
  inferInstanceAs (Decidable (kindRank a < kindRank b ∨
    (kindRank a = kindRank b ∧ lexLe a.name.data b.name.data = true)))

/-- The sorted directory listing of the `main.py` renderer (a stable
ascending sort, as Python `sorted`). -/
def sortByName (cs : List FSNode) : List FSNode := List.insertionSort nameLe cs

/-- The sorted directory listing of the `directory_analyzer.py` renderer. -/
def sortAnalyzer (cs : List FSNode) : List FSNode := List.insertionSort kindNameLe cs

/-- `"└── "`, the connector of a last child. -/
def lastConnector : List Char := "└── ".data

/-- `"├── "`, the connector of a non-last child. -/
def midConnector : List Char := "├── ".data

/-- `"    "`, the indent segment added below a last child or below the root. -/
def sp4 : List Char := "    ".data

/-- `"│   "`, the indent segment added below a non-last child. -/
def bar4 : List Char := "│   ".data

/-- The placeholder emitted at `depth > max_depth`, without its newline. -/
def maxDepthBody : List Char := "└── [Max depth reached]".data

/-- `prefix + "└── [Max depth reached]\n"` body (`main.py` line 129). -/
def maxDepthChars : List Char := maxDepthBody ++ ['\n']

/-- The emitted line for one node, without its terminating newline
(`main.py` lines 134-140): the root has no connector, other nodes get
`prefix + connector + base_name + ("/" if directory)`. -/
def nodeBody (pre : List Char) (isLast isRoot : Bool) (nm : String) (isDir : Bool) :
    List Char :=
  if isRoot then nm.data ++ (if isDir then ['/'] else [])
  else pre ++ (if isLast then lastConnector else midConnector) ++ nm.data ++
    (if isDir then ['/'] else [])

/-- One emitted line including its newline. -/
def nodeLine (pre : List Char) (isLast isRoot : Bool) (nm : String) (isDir : Bool) :
    List Char :=
  nodeBody pre isLast isRoot nm isDir ++ ['\n']

/-- `new_prefix = prefix + ("    " if is_last or is_root else "│   ")`
(`main.py` line 143 / `directory_analyzer.py` line 39). -/
def childPre (pre : List Char) (isLast isRoot : Bool) : List Char :=
  pre ++ (if isLast || isRoot then sp4 else bar4)

/-- The `for i, item in enumerate(items)` loop (`main.py` lines 153-163),
parameterised by the function `r` rendering one child: each child is rendered
with the new prefix; the last Boolean argument of `r` is `is_last`, true
exactly for the final child. -/
def renderKidsWith (r : FSNode → Nat → List Char → Bool → List Char) :
    List FSNode → Nat → List Char → List Char
  | [], _, _ => []
  | [c], depth, pre => r c depth pre true
  | c :: rest, depth, pre => r c depth pre false ++ renderKidsWith r rest depth pre

/-- `create_directory_tree` (`main.py` lines 113-165) and
`DirectoryAnalyzer.create_directory_tree` (`directory_analyzer.py`
lines 14-58), parameterised by the child sort (the only difference between
the two copies).  The recursion depth is bounded by the `depth > max_depth`
check, so a fuel of `max_depth + 2` at the root is never exhausted; the
fuel-0 branch is unreachable from `create_directory_tree_with`. -/
def renderF (sortFn : List FSNode → List FSNode) (md : Nat) :
    Nat → FSNode → Nat → List Char → Bool → Bool → List Char
  | 0, _, depth, pre, _, _ => if depth > md then pre ++ maxDepthChars else []
  | fuel + 1, n, depth, pre, isLast, isRoot =>
    if depth > md then pre ++ maxDepthChars
    else
      match n with
      | .file nm => nodeLine pre isLast isRoot nm false
      | .dir nm cs =>
        nodeLine pre isLast isRoot nm true ++
          renderKidsWith (fun c d p l => renderF sortFn md fuel c d p l false)
            (sortFn cs) (depth + 1) (childPre pre isLast isRoot)

/-- The rendering of a child list at the given remaining fuel. -/
def renderKids (sortFn : List FSNode → List FSNode) (md fuel : Nat)
    (cs : List FSNode) (depth : Nat) (pre : List Char) : List Char :=
  renderKidsWith (fun c d p l => renderF sortFn md fuel c d p l false) cs depth pre

/-- Top-level renderer invocation: root call at depth 0 with empty prefix,
`is_last = is_root = True`. -/
def create_directory_tree_with (sortFn : List FSNode → List FSNode) (n : FSNode)
    (md : Nat) : List Char :=
  renderF sortFn md (md + 2) n 0 [] true true

/-- `create_directory_tree(path, max_depth=md)` of `main.py`. -/
def create_directory_tree (n : FSNode) (md : Nat) : List Char :=
  create_directory_tree_with sortByName n md

/-- `DirectoryAnalyzer(max_depth=md).create_directory_tree(path)` of
`src/core/directory_analyzer.py`. -/
def create_directory_tree_analyzer (n : FSNode) (md : Nat) : List Char :=
  create_directory_tree_with sortAnalyzer n md

/-- Whether a string contains no newline character. -/
def strNoNl (s : String) : Bool := s.data.all (fun c => c ≠ '\n')

/-- Whether no name within the first `fuel` levels of the tree contains a
newline (true of any real directory listing; used to reason about the line
structure of the output, whose depth is bounded by the same fuel as
`renderF`). -/
def noNlF : Nat → FSNode → Bool
  | 0, _ => true
  | _ + 1, .file nm => strNoNl nm
  | fuel + 1, .dir nm cs => strNoNl nm && cs.all (noNlF fuel)

/-- The lines of an emitted character list: maximal newline-free chunks,
with each newline terminating a line (a trailing chunk after the final
newline counts only if nonempty). -/
def linesOf : List Char → List (List Char)
  | [] => []
  | c :: rest =>
    if c = '\n' then [] :: linesOf rest
    else
      match linesOf rest with
      | [] => [[c]]
      | t :: ts => (c :: t) :: ts

/-- `p` is an initial segment of `l`. -/
def leadsWith (p l : List Char) : Prop := ∃ t, p ++ t = l

/-! ## Helper lemmas -/

theorem replaceDS_eq_self : ∀ t : List Char, hasDS t = false → replaceDS t = t := by
  have key : ∀ (n : Nat) (t : List Char), t.length ≤ n → hasDS t = false → replaceDS t = t := by
    intro n
    induction n with
    | zero =>
      intro t hlen _
      have : t = [] := List.eq_nil_of_length_eq_zero (by omega)
      subst this; rfl
    | succ n ih =>
      intro t hlen hds
      match t with
      | [] => rfl
      | [c] => rfl
      | c :: d :: rest =>
        rw [hasDS] at hds
        have h1 : (c == '/' && d == '/') = false := by
          cases hcd : (c == '/' && d == '/') <;> simp [hcd] at hds ⊢
        have h2 : hasDS (d :: rest) = false := by
          cases h2 : hasDS (d :: rest) <;> simp [h2] at hds ⊢
        rw [replaceDS, if_neg (by simp [h1])]
        have : replaceDS (d :: rest) = d :: rest := by
          apply ih _ (by simp at hlen ⊢; omega) h2
        rw [this]
  intro t
  exact key t.length t le_rfl

theorem filter_lt_range (m : Nat) :
    ∀ n, m ≤ n → (List.range n).filter (fun i => decide (i < m)) = List.range m := by
  intro n
  induction n with
  | zero =>
    intro h
    have : m = 0 := by omega
    subst this; rfl
  | succ n ih =>
    intro h
    rcases Nat.lt_or_ge m (n + 1) with hlt | hge
    · rw [List.range_succ, List.filter_append, ih (by omega)]
      simp [show ¬ n < m by omega]
    · have : m = n + 1 := by omega
      subst this
      apply List.filter_eq_self.mpr
      intro a ha
      simp only [List.mem_range] at ha
      simpa using ha

theorem genLoop_all_apiError (backend : Nat → ApiOutcome) (retries : Nat)
    (h : ∀ i, backend i = .apiError) :
    ∀ (fuel attempt : Nat), genLoop backend retries attempt fuel =
      ⟨.ok none, fuel,
        (((List.range fuel).map (fun i => attempt + i)).filter
          (fun i => decide (i < retries - 1))).map (fun i => 2 ^ i)⟩ := by
  intro fuel
  induction fuel with
  | zero => intro attempt; rfl
  | succ f ih =>
    intro attempt
    rw [genLoop, h attempt, ih (attempt + 1)]
    have hfn : List.map (fun i => attempt + i) (List.map Nat.succ (List.range f)) =
        List.map (fun i => (attempt + 1) + i) (List.range f) := by
      rw [List.map_map]
      apply List.map_congr_left
      intro a _
      simp [Function.comp]; omega
    rw [List.range_succ_eq_map, List.map_cons, hfn, List.filter_cons]
    by_cases hlt : attempt < retries - 1
    · simp [hlt]
    · simp [hlt]

theorem genLoop_blocked (backend : Nat → ApiOutcome) (retries : Nat) :
    ∀ (k fuel attempt : Nat), k < fuel →
      (∀ i, i < k → backend (attempt + i) = .apiError) →
      backend (attempt + k) = .blocked →
      (genLoop backend retries attempt fuel).result = .ok none ∧
      (genLoop backend retries attempt fuel).calls = k + 1 := by
  intro k
  induction k with
  | zero =>
    intro fuel attempt hk _ hb
    obtain ⟨f, rfl⟩ : ∃ f, fuel = f + 1 := ⟨fuel - 1, by omega⟩
    rw [genLoop, (by simpa using hb : backend attempt = .blocked)]
    exact ⟨rfl, rfl⟩
  | succ k ih =>
    intro fuel attempt hk he hb
    obtain ⟨f, rfl⟩ : ∃ f, fuel = f + 1 := ⟨fuel - 1, by omega⟩
    have h0 : backend attempt = .apiError := by simpa using he 0 (by omega)
    have hrec := ih f (attempt + 1) (by omega)
      (fun i hi => by
        rw [show attempt + 1 + i = attempt + (i + 1) by omega]
        exact he (i + 1) (by omega))
      (by rw [show attempt + 1 + k = attempt + (k + 1) by omega]; exact hb)
    rw [genLoop, h0]
    exact ⟨hrec.1, by simp [hrec.2]⟩

theorem genLoop_all_invalid (backend : Nat → ApiOutcome) (retries : Nat)
    (h : ∀ i, backend i = .success .other) :
    ∀ (fuel attempt : Nat), genLoop backend retries attempt fuel = ⟨.ok none, fuel, []⟩ := by
  intro fuel
  induction fuel with
  | zero => intro attempt; rfl
  | succ f ih =>
    intro attempt
    rw [genLoop, h attempt]
    show (⟨(genLoop backend retries (attempt + 1) f).result,
      (genLoop backend retries (attempt + 1) f).calls + 1,
      (genLoop backend retries (attempt + 1) f).sleeps⟩ : GenTrace) = _
    rw [ih (attempt + 1)]

/-! ## Claim theorems: validator and generator -/

/-- C1.  End-to-end merge: if the generation backend returns the literal text
`".git/, node_modules/, **/__pycache__/"` (surrounding double quotes included)
and no manual exclusion patterns are supplied, the generator parses it into
the three cleaned patterns (splitting on commas, trimming whitespace,
stripping the surrounding quote characters) and the Orchestrator's merged
exclude set is exactly `{".git/", "node_modules/", "**/__pycache__/"}`. -/
theorem orchestrator_merge_gemini_literal :
    resultPatterns (generate_exclude_patterns true
      (fun _ => .success (.str "\".git/, node_modules/, **/__pycache__/\"")) 3) =
      some [".git/", "node_modules/", "**/__pycache__/"] ∧
    merge_exclude_patterns []
      (resultPatterns (generate_exclude_patterns true
        (fun _ => .success (.str "\".git/, node_modules/, **/__pycache__/\"")) 3)) =
      {".git/", "node_modules/", "**/__pycache__/"} :=
  ⟨by decide, by decide⟩

/-- C2 (counterexample).  The raw string `""` (two double-quote characters)
contains exactly one comma-separated token that is non-empty after whitespace
trimming, yet both validator copies return zero cleaned entries: the token is
dropped by the second (quote-stripping) cleaning pass, contradicting the
claim that no such token is ever dropped. -/
theorem validator_token_count_counterexample :
    tokensOfStr "\"\"" = [['"', '"']] ∧
    parse_and_clean_patterns (.str "\"\"") = .ok [] ∧
    parse_and_clean_patterns_gc (.str "\"\"") = .ok [] :=
  ⟨by decide, by decide, by decide⟩

/-- C2 (amended).  For every raw string whose trimmed comma tokens all stay
non-empty after quote stripping, the validator returns exactly the tokens in
original order, each with surrounding quote characters and whitespace
stripped — in particular exactly N entries for N tokens.  (Tokens consisting
solely of quote characters and spaces are dropped by the second cleaning
pass; see the counterexample.) -/
theorem validator_token_count_amended (s : String)
    (h : ∀ t ∈ tokensOfStr s, stripQuotes t ≠ []) :
    parse_and_clean_patterns (.str s) =
      .ok ((tokensOfStr s).map (fun t => (stripQuotes t).asString)) ∧
    ((tokensOfStr s).map (fun t => (stripQuotes t).asString)).length =
      (tokensOfStr s).length := by
  constructor
  · have hf : ((tokensOfStr s).map stripQuotes).filter (fun t => decide (t ≠ [])) =
        (tokensOfStr s).map stripQuotes := by
      apply List.filter_eq_self.mpr
      intro t ht
      obtain ⟨u, hu, rfl⟩ := List.mem_map.mp ht
      simpa using h u hu
    show Except.ok _ = _
    rw [cleanedTokens, hf, List.map_map]
    rfl
  · simp

theorem validator_token_count_amended_witness :
    parse_and_clean_patterns (.str "a, b") = .ok ["a", "b"] := by
  have h := validator_token_count_amended "a, b" (by decide)
  rw [h.1]
  decide

/-- C3.  For a generation backend that raises a transient transport error on
every call, the Pattern Generator with retry budget R makes exactly R backend
calls, sleeps the doubling delays 2^0, 2^1, ..., 2^(R-2) between consecutive
attempts (a strictly increasing sequence) and not after the final attempt,
and returns the "no patterns" outcome (`.ok none`) rather than raising. -/
theorem generator_transient_retries (retries : Nat) (backend : Nat → ApiOutcome)
    (h : ∀ i, backend i = .apiError) :
    generate_exclude_patterns true backend retries =
      ⟨.ok none, retries, (List.range (retries - 1)).map (fun i => 2 ^ i)⟩ ∧
    (generate_exclude_patterns true backend retries).sleeps.Pairwise (· < ·) := by
  have main : generate_exclude_patterns true backend retries =
      ⟨.ok none, retries, (List.range (retries - 1)).map (fun i => 2 ^ i)⟩ := by
    show genLoop backend retries 0 retries = _
    rw [genLoop_all_apiError backend retries h retries 0]
    have h0 : (List.range retries).map (fun i => 0 + i) = List.range retries := by
      simp
    rw [h0, filter_lt_range (retries - 1) retries (by omega)]
  refine ⟨main, ?_⟩
  rw [main]
  exact List.Pairwise.map _ (fun a b hab => Nat.pow_lt_pow_right (by omega) hab)
    (List.pairwise_lt_range _)

theorem generator_transient_retries_witness :
    generate_exclude_patterns true (fun _ => ApiOutcome.apiError) 3 =
      ⟨.ok none, 3, [1, 2]⟩ ∧
    (generate_exclude_patterns true (fun _ => ApiOutcome.apiError) 3).sleeps.Pairwise
      (· < ·) := by
  have h := generator_transient_retries 3 (fun _ => .apiError) (fun _ => rfl)
  exact ⟨by rw [h.1]; rfl, h.2⟩

/-- C4.  If the generation backend signals a content-safety refusal (blocked
prompt) on attempt k after transport errors on the earlier attempts, the
Pattern Generator stops immediately: exactly k+1 backend calls in total, and
the failure outcome is returned — in particular a refusal on the first
attempt yields exactly 1 call regardless of the configured retry budget. -/
theorem generator_blocked_aborts (retries : Nat) (backend : Nat → ApiOutcome)
    (k : Nat) (hk : k < retries) (he : ∀ i, i < k → backend i = .apiError)
    (hb : backend k = .blocked) :
    (generate_exclude_patterns true backend retries).result = .ok none ∧
    (generate_exclude_patterns true backend retries).calls = k + 1 := by
  show (genLoop backend retries 0 retries).result = _ ∧
    (genLoop backend retries 0 retries).calls = _
  exact genLoop_blocked backend retries k retries 0 hk
    (fun i hi => by simpa using he i hi) (by simpa using hb)

theorem generator_blocked_aborts_witness :
    (generate_exclude_patterns true (fun _ => ApiOutcome.blocked) 5).result = .ok none ∧
    (generate_exclude_patterns true (fun _ => ApiOutcome.blocked) 5).calls = 1 :=
  generator_blocked_aborts 5 (fun _ => .blocked) 0 (by omega)
    (fun i hi => absurd hi (by omega)) rfl

/-- C5 (counterexample).  The Pattern Validator fails with the type
validation error on a payload that is neither a string nor a sequence, but
when such a validation error arises inside the Pattern Generator (here on the
single attempt of a budget-1 run) the generator catches it and returns the
ordinary "no patterns" outcome `.ok none` to its caller — the error is not
propagated (the trace's result is never `.error`), contradicting the claim. -/
theorem generator_validation_error_swallowed :
    parse_and_clean_patterns (stripResponse .other) =
      .error "Patterns must be a string or list" ∧
    generate_exclude_patterns true (fun _ => .success .other) 1 = ⟨.ok none, 1, []⟩ :=
  ⟨by decide, by decide⟩

/-- C5 (amended).  Both validator copies fail with the type validation error
`ValueError("Patterns must be a string or list")` on input that is neither a
string nor a sequence; inside the Pattern Generator such a validation error
is caught and logged (`main.py` lines 215-222), the attempt is consumed
without a backoff sleep, and after the budget is exhausted the generator
returns the "no patterns" outcome to its caller instead of propagating the
error. -/
theorem validator_type_error_amended :
    (parse_and_clean_patterns .other = .error "Patterns must be a string or list" ∧
     parse_and_clean_patterns_gc .other = .error "Patterns must be a string or list") ∧
    ∀ (retries : Nat) (backend : Nat → ApiOutcome),
      (∀ i, backend i = .success .other) →
      generate_exclude_patterns true backend retries = ⟨.ok none, retries, []⟩ := by
  refine ⟨⟨rfl, rfl⟩, ?_⟩
  intro retries backend h
  show genLoop backend retries 0 retries = _
  exact genLoop_all_invalid backend retries h retries 0

theorem validator_type_error_amended_witness :
    generate_exclude_patterns true (fun _ => .success PatternsInput.other) 2 =
      ⟨.ok none, 2, []⟩ :=
  (validator_type_error_amended).2 2 (fun _ => .success .other) (fun _ => rfl)

/-- C8.  The two duplicated validator copies are not extensionally equal:
on the input string `a//b` the `main.py` copy returns `["a//b"]` while the
`gemini_client.py` copy additionally collapses the doubled path separator and
returns `["a/b"]`; and for every input whose cleaned tokens contain no `//`
substring the two copies return identical results. -/
theorem validator_copies_doubleslash :
    (parse_and_clean_patterns (.str "a//b") = .ok ["a//b"] ∧
     parse_and_clean_patterns_gc (.str "a//b") = .ok ["a/b"] ∧
     parse_and_clean_patterns (.str "a//b") ≠ parse_and_clean_patterns_gc (.str "a//b")) ∧
    ∀ v : PatternsInput, (∀ t ∈ cleanedTokens v, hasDS t = false) →
      parse_and_clean_patterns v = parse_and_clean_patterns_gc v := by
  refine ⟨⟨by decide, by decide, by decide⟩, ?_⟩
  intro v h
  have hmap : ∀ w : PatternsInput,
      (∀ t ∈ cleanedTokens w, hasDS t = false) →
      (cleanedTokens w).map List.asString =
        (cleanedTokens w).map (fun t => (replaceDS t).asString) := by
    intro w hw
    apply List.map_congr_left
    intro t ht
    rw [replaceDS_eq_self t (hw t ht)]
  cases v with
  | other => rfl
  | str s =>
    show Except.ok _ = Except.ok _
    rw [hmap _ h]
  | list l =>
    show Except.ok _ = Except.ok _
    rw [hmap _ h]

theorem validator_copies_doubleslash_witness :
    parse_and_clean_patterns (.str "x/y, z") = parse_and_clean_patterns_gc (.str "x/y, z") :=
  (validator_copies_doubleslash).2 (.str "x/y, z") (by decide)

/-- C10.  With a retry budget of 0 the Pattern Generator performs the
configuration step but makes zero backend calls, performs no sleep, and
returns the "no patterns" outcome; a configuration failure alone likewise
yields the failure outcome with zero backend calls and no sleep, for any
budget. -/
theorem generator_zero_retries :
    (∀ backend : Nat → ApiOutcome,
      generate_exclude_patterns true backend 0 = ⟨.ok none, 0, []⟩) ∧
    (∀ (backend : Nat → ApiOutcome) (retries : Nat),
      generate_exclude_patterns false backend retries = ⟨.ok none, 0, []⟩) :=
  ⟨fun _ => rfl, fun _ _ => rfl⟩

/-! ## Renderer line structure -/

theorem noNl_of_all {l : List Char} (h : l.all (fun c => decide (c ≠ '\n')) = true) :
    ∀ c ∈ l, c ≠ '\n' := by
  intro c hc
  exact of_decide_eq_true (List.all_eq_true.mp h c hc)

theorem strNoNl_mem {nm : String} (h : strNoNl nm = true) : ∀ c ∈ nm.data, c ≠ '\n' :=
  noNl_of_all h

theorem linesOf_ne_nil : ∀ l : List Char, l ≠ [] → linesOf l ≠ [] := by
  intro l hl
  cases l with
  | nil => exact absurd rfl hl
  | cons c rest =>
    rw [linesOf]
    by_cases hc : c = '\n'
    · rw [if_pos hc]; simp
    · rw [if_neg hc]
      cases h : linesOf rest <;> simp

theorem linesOf_mid : ∀ t b : List Char,
    linesOf (t ++ '\n' :: b) = linesOf (t ++ ['\n']) ++ linesOf b := by
  intro t
  induction t with
  | nil =>
    intro b
    show linesOf ('\n' :: b) = linesOf ['\n'] ++ linesOf b
    rw [linesOf, if_pos rfl, linesOf, if_pos rfl]
    rfl
  | cons c t' ih =>
    intro b
    by_cases hc : c = '\n'
    · subst hc
      show linesOf ('\n' :: (t' ++ '\n' :: b)) = linesOf ('\n' :: (t' ++ ['\n'])) ++ linesOf b
      rw [linesOf, if_pos rfl, ih b, linesOf, if_pos rfl]
      rfl
    · show linesOf (c :: (t' ++ '\n' :: b)) = linesOf (c :: (t' ++ ['\n'])) ++ linesOf b
      rw [linesOf, if_neg hc, linesOf, if_neg hc, ih b]
      have hne : linesOf (t' ++ ['\n']) ≠ [] := linesOf_ne_nil _ (by simp)
      cases h : linesOf (t' ++ ['\n']) with
      | nil => exact absurd h hne
      | cons u us => rfl

theorem linesOf_line : ∀ t : List Char, (∀ c ∈ t, c ≠ '\n') → linesOf (t ++ ['\n']) = [t] := by
  intro t
  induction t with
  | nil => intro _; rfl
  | cons c t' ih =>
    intro h
    have hc : c ≠ '\n' := h c (by simp)
    show linesOf (c :: (t' ++ ['\n'])) = [c :: t']
    rw [linesOf, if_neg hc, ih (fun d hd => h d (by simp [hd]))]

theorem endsNl_append (a b : List Char)
    (ha : a = [] ∨ ∃ t, a = t ++ ['\n']) (hb : b = [] ∨ ∃ t, b = t ++ ['\n']) :
    a ++ b = [] ∨ ∃ t, a ++ b = t ++ ['\n'] := by
  rcases hb with rfl | ⟨t, rfl⟩
  · simpa using ha
  · right; exact ⟨a ++ t, by rw [List.append_assoc]⟩

theorem maxDepth_lines (pre : List Char) (hpre : ∀ c ∈ pre, c ≠ '\n') :
    linesOf (pre ++ maxDepthChars) = [pre ++ maxDepthBody] := by
  rw [maxDepthChars, ← List.append_assoc, linesOf_line]
  intro c hc
  rcases List.mem_append.mp hc with h | h
  · exact hpre c h
  · exact noNl_of_all (by decide) c h

theorem nodeBody_noNl (pre : List Char) (isLast isRoot : Bool) (nm : String) (isDir : Bool)
    (hpre : ∀ c ∈ pre, c ≠ '\n') (hnm : strNoNl nm = true) :
    ∀ c ∈ nodeBody pre isLast isRoot nm isDir, c ≠ '\n' := by
  intro c hc
  rw [nodeBody] at hc
  have hslash : ∀ c ∈ (if isDir then ['/'] else ([] : List Char)), c ≠ '\n' := by
    intro d hd
    split at hd
    · simp at hd; subst hd; decide
    · simp at hd
  have hconn : ∀ c ∈ (if isLast then lastConnector else midConnector), c ≠ '\n' := by
    intro d hd
    split at hd
    · exact noNl_of_all (by decide) d hd
    · exact noNl_of_all (by decide) d hd
  split at hc
  · rcases List.mem_append.mp hc with h | h
    · exact strNoNl_mem hnm c h
    · exact hslash c h
  · rcases List.mem_append.mp hc with h | h
    · rcases List.mem_append.mp h with h2 | h2
      · rcases List.mem_append.mp h2 with h3 | h3
        · exact hpre c h3
        · exact hconn c h3
      · exact strNoNl_mem hnm c h2
    · exact hslash c h

theorem childPre_noNl (pre : List Char) (isLast isRoot : Bool)
    (hpre : ∀ c ∈ pre, c ≠ '\n') :
    ∀ c ∈ childPre pre isLast isRoot, c ≠ '\n' := by
  intro c hc
  rw [childPre] at hc
  rcases List.mem_append.mp hc with h | h
  · exact hpre c h
  · split at h
    · exact noNl_of_all (by decide) c h
    · exact noNl_of_all (by decide) c h

theorem leadsWith_extend {p s l : List Char} (h : leadsWith (p ++ s) l) : leadsWith p l := by
  obtain ⟨t, ht⟩ := h
  exact ⟨s ++ t, by rw [← ht, List.append_assoc]⟩

theorem nodeBody_lw (pre : List Char) (isLast : Bool) (nm : String) (isDir : Bool) :
    leadsWith pre (nodeBody pre isLast false nm isDir) := by
  refine ⟨(if isLast then lastConnector else midConnector) ++ nm.data ++
    (if isDir then ['/'] else []), ?_⟩
  rw [nodeBody]
  simp [List.append_assoc]

theorem render_endsNl (sortFn : List FSNode → List FSNode) (md : Nat) :
    ∀ fuel : Nat,
      (∀ (n : FSNode) (depth : Nat) (pre : List Char) (isLast isRoot : Bool),
        renderF sortFn md fuel n depth pre isLast isRoot = [] ∨
        ∃ t, renderF sortFn md fuel n depth pre isLast isRoot = t ++ ['\n']) ∧
      (∀ (cs : List FSNode) (depth : Nat) (pre : List Char),
        renderKids sortFn md fuel cs depth pre = [] ∨
        ∃ t, renderKids sortFn md fuel cs depth pre = t ++ ['\n']) := by
  have hmax : ∀ pre : List Char, ∃ t, pre ++ maxDepthChars = t ++ ['\n'] := fun pre =>
    ⟨pre ++ maxDepthBody, by rw [maxDepthChars, List.append_assoc]⟩
  have kidsOf :
      ∀ fuel,
        (∀ (n : FSNode) (depth : Nat) (pre : List Char) (isLast isRoot : Bool),
          renderF sortFn md fuel n depth pre isLast isRoot = [] ∨
          ∃ t, renderF sortFn md fuel n depth pre isLast isRoot = t ++ ['\n']) →
        (∀ (cs : List FSNode) (depth : Nat) (pre : List Char),
          renderKids sortFn md fuel cs depth pre = [] ∨
          ∃ t, renderKids sortFn md fuel cs depth pre = t ++ ['\n']) := by
    intro fuel h1 cs
    induction cs with
    | nil => intro depth pre; left; rfl
    | cons c rest ihcs =>
      intro depth pre
      cases rest with
      | nil => exact h1 c depth pre true false
      | cons d rest' =>
        show renderF sortFn md fuel c depth pre false false ++
          renderKids sortFn md fuel (d :: rest') depth pre = [] ∨ ∃ t, _ = t ++ ['\n']
        exact endsNl_append _ _ (h1 c depth pre false false) (ihcs depth pre)
  intro fuel
  induction fuel with
  | zero =>
    have h1 : ∀ (n : FSNode) (depth : Nat) (pre : List Char) (isLast isRoot : Bool),
        renderF sortFn md 0 n depth pre isLast isRoot = [] ∨
        ∃ t, renderF sortFn md 0 n depth pre isLast isRoot = t ++ ['\n'] := by
      intro n depth pre isLast isRoot
      rw [renderF]
      by_cases hd : depth > md
      · rw [if_pos hd]; right; exact hmax pre
      · rw [if_neg hd]; left; rfl
    exact ⟨h1, kidsOf 0 h1⟩
  | succ f ihf =>
    have h1 : ∀ (n : FSNode) (depth : Nat) (pre : List Char) (isLast isRoot : Bool),
        renderF sortFn md (f + 1) n depth pre isLast isRoot = [] ∨
        ∃ t, renderF sortFn md (f + 1) n depth pre isLast isRoot = t ++ ['\n'] := by
      intro n depth pre isLast isRoot
      cases n with
      | file nm =>
        rw [renderF]
        by_cases hd : depth > md
        · rw [if_pos hd]; right; exact hmax pre
        · rw [if_neg hd]
          right
          exact ⟨nodeBody pre isLast isRoot nm false, rfl⟩
      | dir nm cs =>
        rw [renderF]
        by_cases hd : depth > md
        · rw [if_pos hd]; right; exact hmax pre
        · rw [if_neg hd]
          exact endsNl_append _ _
            (Or.inr ⟨nodeBody pre isLast isRoot nm true, rfl⟩)
            (ihf.2 (sortFn cs) (depth + 1) (childPre pre isLast isRoot))
    exact ⟨h1, kidsOf (f + 1) h1⟩

theorem render_lines_lw (sortFn : List FSNode → List FSNode)
    (hs : ∀ (cs : List FSNode) (c : FSNode), c ∈ sortFn cs → c ∈ cs) (md : Nat) :
    ∀ fuel : Nat,
      (∀ (n : FSNode) (depth : Nat) (pre : List Char) (isLast : Bool),
        noNlF fuel n = true → (∀ c ∈ pre, c ≠ '\n') →
        ∀ line ∈ linesOf (renderF sortFn md fuel n depth pre isLast false),
          leadsWith pre line) ∧
      (∀ (cs : List FSNode) (depth : Nat) (pre : List Char),
        (∀ c ∈ cs, noNlF fuel c = true) → (∀ c ∈ pre, c ≠ '\n') →
        ∀ line ∈ linesOf (renderKids sortFn md fuel cs depth pre),
          leadsWith pre line) := by
  have hmaxline : ∀ pre : List Char, (∀ c ∈ pre, c ≠ '\n') →
      ∀ line ∈ linesOf (pre ++ maxDepthChars), leadsWith pre line := by
    intro pre hpre line hline
    rw [maxDepth_lines pre hpre] at hline
    simp only [List.mem_singleton] at hline
    subst hline
    exact ⟨maxDepthBody, rfl⟩
  have kidsOf : ∀ fuel : Nat,
      (∀ (n : FSNode) (depth : Nat) (pre : List Char) (isLast : Bool),
        noNlF fuel n = true → (∀ c ∈ pre, c ≠ '\n') →
        ∀ line ∈ linesOf (renderF sortFn md fuel n depth pre isLast false),
          leadsWith pre line) →
      (∀ (cs : List FSNode) (depth : Nat) (pre : List Char),
        (∀ c ∈ cs, noNlF fuel c = true) → (∀ c ∈ pre, c ≠ '\n') →
        ∀ line ∈ linesOf (renderKids sortFn md fuel cs depth pre),
          leadsWith pre line) := by
    intro fuel h1 cs
    induction cs with
    | nil =>
      intro depth pre _ _ line hline
      simp [renderKids, renderKidsWith, linesOf] at hline
    | cons c rest ihcs =>
      intro depth pre hcs hpre line hline
      cases rest with
      | nil => exact h1 c depth pre true (hcs c (by simp)) hpre line hline
      | cons d rest' =>
        have hsplit : linesOf (renderF sortFn md fuel c depth pre false false ++
            renderKids sortFn md fuel (d :: rest') depth pre) =
            linesOf (renderF sortFn md fuel c depth pre false false) ++
            linesOf (renderKids sortFn md fuel (d :: rest') depth pre) := by
          rcases (render_endsNl sortFn md fuel).1 c depth pre false false with he | ⟨t, he⟩
          · rw [he]; simp [linesOf]
          · rw [he, List.append_assoc, List.singleton_append, linesOf_mid]
        rw [show renderKids sortFn md fuel (c :: d :: rest') depth pre =
          renderF sortFn md fuel c depth pre false false ++
            renderKids sortFn md fuel (d :: rest') depth pre from rfl, hsplit] at hline
        rcases List.mem_append.mp hline with h | h
        · exact h1 c depth pre false (hcs c (by simp)) hpre line h
        · exact ihcs depth pre (fun x hx => hcs x (by simp [hx])) hpre line h
  intro fuel
  induction fuel with
  | zero =>
    have h1 : ∀ (n : FSNode) (depth : Nat) (pre : List Char) (isLast : Bool),
        noNlF 0 n = true → (∀ c ∈ pre, c ≠ '\n') →
        ∀ line ∈ linesOf (renderF sortFn md 0 n depth pre isLast false),
          leadsWith pre line := by
      intro n depth pre isLast _ hpre line hline
      rw [renderF] at hline
      by_cases hd : depth > md
      · rw [if_pos hd] at hline
        exact hmaxline pre hpre line hline
      · rw [if_neg hd] at hline
        simp [linesOf] at hline
    exact ⟨h1, kidsOf 0 h1⟩
  | succ f ihf =>
    have h1 : ∀ (n : FSNode) (depth : Nat) (pre : List Char) (isLast : Bool),
        noNlF (f + 1) n = true → (∀ c ∈ pre, c ≠ '\n') →
        ∀ line ∈ linesOf (renderF sortFn md (f + 1) n depth pre isLast false),
          leadsWith pre line := by
      intro n depth pre isLast hn hpre line hline
      cases n with
      | file nm =>
        rw [renderF] at hline
        by_cases hd : depth > md
        · rw [if_pos hd] at hline
          exact hmaxline pre hpre line hline
        · rw [if_neg hd, nodeLine,
            linesOf_line _ (nodeBody_noNl pre isLast false nm false hpre
              (by rwa [noNlF] at hn))] at hline
          simp only [List.mem_singleton] at hline
          subst hline
          exact nodeBody_lw pre isLast nm false
      | dir nm cs =>
        rw [renderF] at hline
        by_cases hd : depth > md
        · rw [if_pos hd] at hline
          exact hmaxline pre hpre line hline
        · rw [noNlF, Bool.and_eq_true] at hn
          have hnm : strNoNl nm = true := hn.1
          have hncs : ∀ x ∈ cs, noNlF f x = true := fun x hx =>
            List.all_eq_true.mp hn.2 x hx
          rw [if_neg hd, nodeLine, List.append_assoc, List.singleton_append, linesOf_mid,
            linesOf_line _ (nodeBody_noNl pre isLast false nm true hpre hnm)] at hline
          rcases List.mem_append.mp hline with h | h
          · simp only [List.mem_singleton] at h
            subst h
            exact nodeBody_lw pre isLast nm true
          · have hkid := ihf.2 (sortFn cs) (depth + 1) (childPre pre isLast false)
              (fun x hx => hncs x (hs cs x hx))
              (childPre_noNl pre isLast false hpre) line h
            rw [childPre] at hkid
            exact leadsWith_extend hkid
    exact ⟨h1, kidsOf (f + 1) h1⟩

theorem lexLe_total : ∀ a b : List Char, lexLe a b = true ∨ lexLe b a = true := by
  intro a
  induction a with
  | nil => intro b; left; rfl
  | cons x xs ih =>
    intro b
    cases b with
    | nil => right; rfl
    | cons y ys =>
      rw [lexLe, lexLe]
      by_cases hxy : x.toNat = y.toNat
      · rw [if_pos hxy, if_pos hxy.symm]
        exact ih ys
      · rw [if_neg hxy, if_neg (fun h => hxy h.symm)]
        rcases Nat.lt_or_ge x.toNat y.toNat with h | h
        · left; exact decide_eq_true h
        · right; exact decide_eq_true (by omega)

theorem lexLe_trans : ∀ a b c : List Char,
    lexLe a b = true → lexLe b c = true → lexLe a c = true := by
  intro a
  induction a with
  | nil => intro b c _ _; rfl
  | cons x xs ih =>
    intro b c hab hbc
    cases b with
    | nil => rw [lexLe] at hab; exact absurd hab (by simp)
    | cons y ys =>
      cases c with
      | nil => rw [lexLe] at hbc; exact absurd hbc (by simp)
      | cons z zs =>
        rw [lexLe] at hab hbc ⊢
        by_cases hxy : x.toNat = y.toNat
        · rw [if_pos hxy] at hab
          by_cases hyz : y.toNat = z.toNat
          · rw [if_pos hyz] at hbc
            rw [if_pos (hxy.trans hyz)]
            exact ih ys zs hab hbc
          · rw [if_neg hyz] at hbc
            have h2 := of_decide_eq_true hbc
            rw [if_neg (by omega)]
            exact decide_eq_true (by omega)
        · rw [if_neg hxy] at hab
          have h1 := of_decide_eq_true hab
          by_cases hyz : y.toNat = z.toNat
          · rw [if_neg (by omega)]
            exact decide_eq_true (by omega)
          · rw [if_neg hyz] at hbc
            have h2 := of_decide_eq_true hbc
            rw [if_neg (by omega)]
            exact decide_eq_true (by omega)

theorem sortByName_mem : ∀ (cs : List FSNode) (c : FSNode), c ∈ sortByName cs → c ∈ cs :=
  fun _ _ h => (List.mem_insertionSort nameLe).mp h

theorem sortAnalyzer_mem : ∀ (cs : List FSNode) (c : FSNode), c ∈ sortAnalyzer cs → c ∈ cs :=
  fun _ _ h => (List.mem_insertionSort kindNameLe).mp h

/-! ## Claim theorems: tree renderer -/

/-- C7.  For every node at a depth exceeding the bound, both renderer copies
(any child sort) emit exactly the one corner-connector placeholder line
`prefix + "└── [Max depth reached]\n"`, independently of the node — in
particular they never recurse into or render the children of such a node. -/
theorem renderer_max_depth_single_line (sortFn : List FSNode → List FSNode)
    (md fuel : Nat) (n : FSNode) (depth : Nat) (pre : List Char) (isLast isRoot : Bool)
    (hd : depth > md) (hpre : ∀ c ∈ pre, c ≠ '\n') :
    renderF sortFn md fuel n depth pre isLast isRoot = pre ++ maxDepthChars ∧
    linesOf (renderF sortFn md fuel n depth pre isLast isRoot) = [pre ++ maxDepthBody] ∧
    ∀ n' : FSNode, renderF sortFn md fuel n' depth pre isLast isRoot =
      renderF sortFn md fuel n depth pre isLast isRoot := by
  have heq : ∀ n' : FSNode, renderF sortFn md fuel n' depth pre isLast isRoot =
      pre ++ maxDepthChars := by
    intro n'
    cases fuel with
    | zero => rw [renderF, if_pos hd]
    | succ f =>
      cases n' with
      | file nm => rw [renderF, if_pos hd]
      | dir nm cs => rw [renderF, if_pos hd]
  refine ⟨heq n, ?_, fun n' => by rw [heq n', heq n]⟩
  rw [heq n]
  exact maxDepth_lines pre hpre

theorem renderer_max_depth_single_line_witness :
    renderF sortByName 2 10 (FSNode.file "a") 3 [] true false = [] ++ maxDepthChars ∧
    linesOf (renderF sortByName 2 10 (FSNode.file "a") 3 [] true false) =
      [[] ++ maxDepthBody] :=
  ⟨(renderer_max_depth_single_line sortByName 2 10 (.file "a") 3 [] true false (by omega)
      (by simp)).1,
   (renderer_max_depth_single_line sortByName 2 10 (.file "a") 3 [] true false (by omega)
      (by simp)).2.1⟩

/-- C6 (counterexample).  For the directory `r` with children file `a` and
directory `b`, the `directory_analyzer.py` copy lists the directory `b/`
before the file `a` (children sorted by (not-is-dir, name)), while the
`main.py` copy interleaves purely by name (`a` before `b/`): the two
renderings differ, so the children are not listed "purely by name (not
grouped by kind)" in the analyzer copy. -/
theorem analyzer_sort_counterexample :
    create_directory_tree_analyzer (.dir "r" [.file "a", .dir "b" []]) 8 =
      "r/\n    ├── b/\n    └── a\n".data ∧
    create_directory_tree (.dir "r" [.file "a", .dir "b" []]) 8 =
      "r/\n    ├── a\n    └── b/\n".data ∧
    create_directory_tree_analyzer (.dir "r" [.file "a", .dir "b" []]) 8 ≠
      create_directory_tree (.dir "r" [.file "a", .dir "b" []]) 8 ∧
    sortAnalyzer [.file "a", .dir "b" []] = [.dir "b" [], .file "a"] :=
  ⟨by decide, by decide, by decide, rfl⟩

/-- C6 (amended).  Both renderer copies list a directory's children in a
single sorted read and recurse into each child with depth+1, but they sort
differently: the `main.py` copy sorts lexicographically by name with
directories and files interleaved, while the `directory_analyzer.py` copy
sorts by the pair (not-is-directory, name) — directories first, then files,
each group by name.  Either sorted listing is a permutation of the children,
sorted with respect to its copy's order. -/
theorem renderer_sort_amended (nm : String) (cs : List FSNode) (md depth : Nat)
    (pre : List Char) (isLast isRoot : Bool) (fuel : Nat) (hd : depth ≤ md) :
    (renderF sortByName md (fuel + 1) (.dir nm cs) depth pre isLast isRoot =
      nodeLine pre isLast isRoot nm true ++
        renderKids sortByName md fuel (sortByName cs) (depth + 1)
          (childPre pre isLast isRoot)) ∧
    (renderF sortAnalyzer md (fuel + 1) (.dir nm cs) depth pre isLast isRoot =
      nodeLine pre isLast isRoot nm true ++
        renderKids sortAnalyzer md fuel (sortAnalyzer cs) (depth + 1)
          (childPre pre isLast isRoot)) ∧
    (sortByName cs).Perm cs ∧ List.Sorted nameLe (sortByName cs) ∧
    (sortAnalyzer cs).Perm cs ∧ List.Sorted kindNameLe (sortAnalyzer cs) := by
  have heq : ∀ sortFn : List FSNode → List FSNode,
      renderF sortFn md (fuel + 1) (.dir nm cs) depth pre isLast isRoot =
        nodeLine pre isLast isRoot nm true ++
          renderKids sortFn md fuel (sortFn cs) (depth + 1) (childPre pre isLast isRoot) := by
    intro sortFn
    rw [renderF, if_neg (by omega)]
    rfl
  refine ⟨heq _, heq _, List.perm_insertionSort _ _, ?_, List.perm_insertionSort _ _, ?_⟩
  · haveI : IsTotal FSNode nameLe := ⟨fun a b => lexLe_total a.name.data b.name.data⟩
    haveI : IsTrans FSNode nameLe :=
      ⟨fun _ _ _ hab hbc => lexLe_trans _ _ _ hab hbc⟩
    exact List.sorted_insertionSort _ _
  · haveI : IsTotal FSNode kindNameLe := ⟨by
      intro a b
      rcases Nat.lt_trichotomy (kindRank a) (kindRank b) with h | h | h
      · exact Or.inl (Or.inl h)
      · rcases lexLe_total a.name.data b.name.data with hl | hl
        · exact Or.inl (Or.inr ⟨h, hl⟩)
        · exact Or.inr (Or.inr ⟨h.symm, hl⟩)
      · exact Or.inr (Or.inl h)⟩
    haveI : IsTrans FSNode kindNameLe := ⟨by
      intro a b c hab hbc
      rcases hab with h1 | ⟨h1, hl1⟩ <;> rcases hbc with h2 | ⟨h2, hl2⟩
      · exact Or.inl (by omega)
      · exact Or.inl (by omega)
      · exact Or.inl (by omega)
      · exact Or.inr ⟨h1.trans h2, lexLe_trans _ _ _ hl1 hl2⟩⟩
    exact List.sorted_insertionSort _ _

theorem renderer_sort_amended_witness :
    renderF sortByName 8 9 (.dir "r" [.file "a", .dir "b" []]) 0 [] true true =
      nodeLine [] true true "r" true ++
        renderKids sortByName 8 8 (sortByName [.file "a", .dir "b" []]) 1
          (childPre [] true true) :=
  (renderer_sort_amended "r" [.file "a", .dir "b" []] 8 0 [] true true 8 (by omega)).1

/-- C9.  When the root of a rendering is a directory (with newline-free
names, as on a real filesystem), the root call passes the four-space indent
segment to its children even though the root line has no connector, every
line after the root line begins with that four-space segment (so depth-1
lines never start at column 0), and at every level the accumulated prefix
grows by exactly one four-character indent segment — the segment contributed
below the root always being `"    "`. -/
theorem renderer_root_indent_invariant (sortFn : List FSNode → List FSNode)
    (hs : ∀ (cs : List FSNode) (c : FSNode), c ∈ sortFn cs → c ∈ cs)
    (nm : String) (cs : List FSNode) (md : Nat)
    (hn : noNlF (md + 2) (.dir nm cs) = true) :
    create_directory_tree_with sortFn (.dir nm cs) md =
      (nm.data ++ ['/', '\n']) ++ renderKids sortFn md (md + 1) (sortFn cs) 1 sp4 ∧
    (∀ line ∈ (linesOf (create_directory_tree_with sortFn (.dir nm cs) md)).tail,
      leadsWith sp4 line) ∧
    (∀ (pre : List Char) (isLast isRoot : Bool),
      (childPre pre isLast isRoot).length = pre.length + 4) ∧
    (∀ (pre : List Char) (isLast : Bool), childPre pre isLast true = pre ++ sp4) := by
  rw [noNlF, Bool.and_eq_true] at hn
  have hnm : strNoNl nm = true := hn.1
  have hncs : ∀ x ∈ cs, noNlF (md + 1) x = true := fun x hx =>
    List.all_eq_true.mp hn.2 x hx
  have hout : create_directory_tree_with sortFn (.dir nm cs) md =
      nodeBody [] true true nm true ++ '\n' ::
        renderKids sortFn md (md + 1) (sortFn cs) 1 (childPre [] true true) := by
    show renderF sortFn md (md + 1 + 1) (.dir nm cs) 0 [] true true = _
    rw [renderF, if_neg (by omega), nodeLine, List.append_assoc, List.singleton_append]
    rfl
  have hcp : childPre [] true true = sp4 := by rw [childPre]; rfl
  have hbody : nodeBody [] true true nm true = nm.data ++ ['/'] := by
    rw [nodeBody]; simp
  refine ⟨?_, ?_, ?_, ?_⟩
  · rw [hout, hcp, hbody]
    simp [List.append_assoc]
  · intro line hline
    rw [hout, hcp, linesOf_mid,
      linesOf_line _ (nodeBody_noNl [] true true nm true (by simp) hnm),
      List.singleton_append, List.tail_cons] at hline
    exact (render_lines_lw sortFn hs md (md + 1)).2 (sortFn cs) 1 sp4
      (fun x hx => hncs x (hs cs x hx)) (noNl_of_all (by decide)) line hline
  · intro pre isLast isRoot
    rw [childPre, List.length_append]
    by_cases h : (isLast || isRoot) = true
    · rw [if_pos h, show sp4.length = 4 from rfl]
    · rw [if_neg h, show bar4.length = 4 from rfl]
  · intro pre isLast
    rw [childPre]
    simp

theorem renderer_root_indent_invariant_witness :
    leadsWith sp4 "    └── a".data :=
  (renderer_root_indent_invariant sortByName sortByName_mem "r" [.file "a"] 8
    (by decide)).2.1 ("    └── a".data) (by decide)
